import Mathlib

/-!
Verification of the spaced-repetition flashcard manager (src/main.rs).

Shallow embedding conventions:
- `u32`/`u64`/`usize` values are embedded as `Nat`.  The one place where the
  source can wrap (the `u32` subtraction `5 - performance` in
  `Flashcard::update`) is embedded explicitly with `wrapSub32`, giving the
  release-mode (two's-complement wrapping) semantics.
- `f32` values (`ease_factor`) are embedded as exact rationals `ℚ`; the float
  literals `0.1`, `0.08`, `1.3`, `2.5` of the source become `1/10`, `2/25`,
  `13/10`, `5/2`.  `f32::round` (round half away from zero, on the
  nonnegative values occurring here) becomes `rustRound`.
- the clock read `SystemTime::now().duration_since(UNIX_EPOCH)` is an `Option
  Nat` argument (`none` = the clock read failed).
- `HashMap<String, Flashcard>` is embedded as an association list, whose
  order stands for the map's (arbitrary but per-run fixed) iteration order;
  `insert` is `hashInsert` (overwrite an existing key, otherwise append).
- terminal input is a `List String` of the lines `read_line` returns, in
  order; an exhausted script reads as `""` (end of input).
- `Vec::sort_by_key` is a stable sort; it is embedded as the (extensionally
  unique) stable sort `List.insertionSort` on the key order `nrLE`.
-/

/-- The modulus of `u32` arithmetic. -/
def U32MOD : Nat := 2 ^ 32

/-- Wrapping (release-mode) `u32` subtraction `a - b`, for `a b < U32MOD`. -/
def wrapSub32 (a b : Nat) : Nat := (a + U32MOD - b) % U32MOD

/-- Rust `f32::round` for the nonnegative values arising here: round half away
from zero, i.e. `⌊q + 1/2⌋`. -/
def rustRound (q : ℚ) : Int := ⌊q + 1/2⌋

/-- The `Flashcard` struct of the source. -/
structure Flashcard where
  question : String
  answer : String
  guidance : String
  interval : Nat
  repetitions : Nat
  ease_factor : ℚ
  next_review : Nat
deriving DecidableEq

/-- `Flashcard::new`: fresh card with `interval 0`, `repetitions 0`,
`ease_factor 2.5`, `next_review 0`. -/
def Flashcard.new (question answer guidance : String) : Flashcard :=
  { question := question, answer := answer, guidance := guidance
    interval := 0, repetitions := 0, ease_factor := 5/2, next_review := 0 }

/-- `Flashcard::update`.  `clock` is the result of the `SystemTime::now()`
read inside `update` (`none`: the clock read failed, and the source's
`unwrap_or_else` handler stores `0`). -/
def Flashcard.update (c : Flashcard) (performance : Nat) (clock : Option Nat) :
    Flashcard :=
  let c1 :=
    match performance with
    | 0 => { c with interval := 1, repetitions := 0 }
    | 1 => { c with interval := 1 }
    | _ =>
      let newInterval :=
        if c.repetitions = 0 then 1
        else if c.repetitions = 1 then 6
        else (rustRound ((c.interval : ℚ) * c.ease_factor)).toNat
      { c with interval := newInterval, repetitions := c.repetitions + 1 }
  let c2 :=
    { c1 with
      ease_factor :=
        max (13/10) (c1.ease_factor + 1/10 - (wrapSub32 5 performance : ℚ) * (2/25)) }
  { c2 with
    next_review :=
      match clock with
      | some n => n + c2.interval * 86400
      | none => 0 }

/-- Rust `str::trim`: drop leading and trailing whitespace. -/
def rustTrim (s : String) : String :=
  ⟨((s.data.dropWhile Char.isWhitespace).reverse.dropWhile Char.isWhitespace).reverse⟩

/-- Rust `str::split('~')` on the character list: every occurrence of `~`
separates fields, empty fields are kept. -/
def splitTilde (cs : List Char) : List (List Char) :=
  cs.foldr (fun c acc =>
    if c = '~' then [] :: acc
    else match acc with
    | [] => [[c]]
    | h :: t => (c :: h) :: t) [[]]

/-- Rust `str::to_lowercase` (ASCII-relevant part). -/
def rustToLower (s : String) : String := ⟨s.data.map Char.toLower⟩

/-- Rust `str::parse::<u32>()`: optional leading `+`, then one or more
digits, value below `2^32`; anything else is a parse error.  The source
always parses the already-trimmed input `performance.trim()`. -/
def parseU32 (s : String) : Option Nat :=
  let t := (rustTrim s).data
  let t := if t.head? = some '+' then t.tail else t
  if t = [] then none
  else if t.all Char.isDigit then
    let n := t.foldl (fun a c => a * 10 + (c.toNat - 48)) 0
    if n < U32MOD then some n else none
  else none

/-- The continue-choice test of the session:
`choice.trim().to_lowercase() != "y"` ends the session, so `true` means
"continue". -/
def choiceIsY (s : String) : Bool := rustToLower (rustTrim s) == "y"

/-- The manager's map, as an association list; the list order stands for the
map's (arbitrary but per-run fixed) iteration order. -/
abbrev Store : Type := List (String × Flashcard)

/-- The key list of a store. -/
def Store.keys (s : Store) : List String := List.map Prod.fst s

/-- `HashMap::get`-style lookup. -/
def Store.lookup : Store → String → Option Flashcard
  | [], _ => none
  | (k, c) :: rest, q => if k = q then some c else Store.lookup rest q

/-- `HashMap::insert`: overwrite the entry of an existing key, otherwise add
a new entry. -/
def hashInsert (s : Store) (k : String) (c : Flashcard) : Store :=
  if (s.lookup k).isSome then
    List.map (fun kv => if kv.1 = k then (k, c) else kv) s
  else s ++ [(k, c)]

/-- The candidate key the `while` loop of `add_flashcard` tries at step `k`:
the plain question first, then `format!("{} ({})", question, counter)` for
counter `k ≥ 1`. -/
def candidate (q : String) : Nat → String
  | 0 => q
  | k + 1 => q ++ " (" ++ Nat.repr (k + 1) ++ ")"

/-- The `while self.flashcards.contains_key(&unique_question)` loop, as a
fuelled recursion: at each step the current candidate is tested, and the
counter advances.  `add_flashcard` runs it with fuel `keys.length + 1`,
which `disambigLoop_not_mem` below shows is always enough to find a free
key, so the fuelled recursion computes exactly what the source's unbounded
loop computes. -/
def disambigLoop (keys : List String) (q : String) : Nat → Nat → String
  | 0, k => candidate q k
  | fuel + 1, k =>
    if candidate q k ∈ keys then disambigLoop keys q fuel (k + 1)
    else candidate q k

/-- The unique key chosen by `add_flashcard` for question `q`. -/
def disambiguate (keys : List String) (q : String) : String :=
  disambigLoop keys q (keys.length + 1) 0

/-- `SpacedRepetitionManager::add_flashcard`. -/
def addFlashcard (s : Store) (question answer guidance : String) : Store :=
  let uq := disambiguate (Store.keys s) question
  hashInsert s uq (Flashcard.new uq answer guidance)

/-- Processing of one import line: trim, skip if empty, split on `~`, keep
exactly-three-field lines with each field trimmed. -/
def parseLine (line : String) : Option (String × String × String) :=
  let t := rustTrim line
  if t.data = [] then none
  else
    match (splitTilde t.data).map List.asString with
    | [q, a, g] => some (rustTrim q, rustTrim a, rustTrim g)
    | _ => none

/-- One loop iteration of `batch_add_flashcards`. -/
def processLine (st : Store) (line : String) : Store :=
  match parseLine line with
  | some (q, a, g) => addFlashcard st q a g
  | none => st

/-- `SpacedRepetitionManager::batch_add_flashcards` on the file's lines (the
final `save` persists the returned store). -/
def batchAddFlashcards (st : Store) (lines : List String) : Store :=
  lines.foldl processLine st

/-- `SpacedRepetitionManager::save`: the sequence of card records written
out, i.e. the map's values in iteration order (the JSON encoding and the
file write are the external collaborator of spec section 6 and are embedded
as the identity on this record sequence). -/
def save (s : Store) : List Flashcard := s.map Prod.snd

/-- `SpacedRepetitionManager::load` into an empty manager: insert every
record under its `question` field. -/
def load (l : List Flashcard) : Store :=
  l.foldl (fun st c => hashInsert st c.question c) []

/-- Decimal decoding of a digit-character list (for `Nat.repr` injectivity). -/
def decodeDigits (cs : List Char) : Nat :=
  cs.foldl (fun a c => a * 10 + (c.toNat - 48)) 0

/-- Observable events of a review session, in order: a due card being shown,
an unparsable score being reported (that card is skipped), a card's score
being accepted and `update` applied, and the continue-prompt firing (tagged
with the value of `review_count` at that moment). -/
inductive SessionEvent where
  | presented (question : String)
  | invalid
  | reviewed (question : String)
  | prompted (count : Nat)
deriving DecidableEq

/-- The sort key order of `flashcards.sort_by_key(|f| f.next_review)`. -/
def nrLE (a b : Flashcard) : Prop := a.next_review ≤ b.next_review

instance : DecidableRel nrLE := fun a b => Nat.decLe a.next_review b.next_review

instance : IsTotal Flashcard nrLE := ⟨fun a b => Nat.le_total a.next_review b.next_review⟩

instance : IsTrans Flashcard nrLE := ⟨fun _ _ _ => Nat.le_trans⟩

/-- The stable sort of the card list by `next_review` (embedding
`sort_by_key`, which Rust documents as stable). -/
def sortByNextReview (cards : List Flashcard) : List Flashcard :=
  List.insertionSort nrLE cards

/-- The cards a full session presents: sorted by `next_review`, keeping the
ones due (`next_review <= now`). -/
def selectDue (cards : List Flashcard) (now : Nat) : List Flashcard :=
  (sortByNextReview cards).filter (fun c => c.next_review ≤ now)

/-- The `for flashcard in flashcards` loop of `review_flashcards`.  `cards`
is the (already sorted) card vector, `script` the remaining terminal input,
`count` the current `review_count`.  Per due card the loop consumes an
acknowledgment line and a score line; at a batch boundary it consumes a
continue-choice line, and a non-`y` answer breaks the loop, leaving the
remaining cards untouched.  Returns the final card states (in vector order)
and the event trace.  (For `N = 0` the source's `review_count % batch_size`
would panic; `Nat`'s `k % 0 = k` makes the model total there, and the claims
only concern `N ≥ 1`.) -/
def runSession (N now : Nat) :
    List Flashcard → List String → Nat → List Flashcard × List SessionEvent
  | [], _, _ => ([], [])
  | c :: rest, script, count =>
    if c.next_review ≤ now then
      match parseU32 (script.tail.headD "") with
      | none =>
        let r := runSession N now rest script.tail.tail (count + 1)
        (c :: r.1, .presented c.question :: .invalid :: r.2)
      | some p =>
        let c' := c.update p (some now)
        if (count + 1) % N = 0 then
          if choiceIsY (script.tail.tail.headD "") then
            let r := runSession N now rest script.tail.tail.tail (count + 1)
            (c' :: r.1,
              .presented c.question :: .reviewed c.question ::
                .prompted (count + 1) :: r.2)
          else
            (c' :: rest,
              [.presented c.question, .reviewed c.question, .prompted (count + 1)])
        else
          let r := runSession N now rest script.tail.tail (count + 1)
          (c' :: r.1, .presented c.question :: .reviewed c.question :: r.2)
    else
      let r := runSession N now rest script count
      (c :: r.1, r.2)

/-- `SpacedRepetitionManager::review_flashcards`: read the clock, sort the
cards by `next_review`, run the review loop, then persist (`save`) the
resulting card states. -/
def reviewFlashcards (batchSize now : Nat) (cards : List Flashcard)
    (script : List String) : List Flashcard × List SessionEvent :=
  runSession batchSize now (sortByNextReview cards) script 0

/-- The questions presented during a session, in order. -/
def presentedOf (t : List SessionEvent) : List String :=
  t.filterMap fun e =>
    match e with
    | .presented q => some q
    | _ => none

/-- The `review_count` values at which the continue-prompt fired, in order. -/
def promptsOf (t : List SessionEvent) : List Nat :=
  t.filterMap fun e =>
    match e with
    | .prompted k => some k
    | _ => none

/-- The questions whose score was accepted and whose card was updated, in
order. -/
def reviewedOf (t : List SessionEvent) : List String :=
  t.filterMap fun e =>
    match e with
    | .reviewed q => some q
    | _ => none

/-- Session model written from the words of the amended C5 claim, to be
compared with `runSession` (the embedding of the source's loop): the batch
counter `j` counts presented due cards, including cards skipped for invalid
score input; an invalid score skips the card unchanged, with no prompt; the
continue-prompt fires after a presented card exactly when that counter is a
positive multiple of `N` and the current card's score parsed; a negative
(non-`y`) answer ends the session early — no further due card is presented
and the remaining cards keep their state, so the final (persisted) card
states are exactly the updates applied before the stop. -/
def amendedSessionModel (N now : Nat) :
    List Flashcard → List String → Nat → List Flashcard × List SessionEvent
  | [], _, _ => ([], [])
  | c :: rest, script, j =>
    if c.next_review ≤ now then
      match parseU32 (script.tail.headD "") with
      | none =>
        let r := amendedSessionModel N now rest script.tail.tail (j + 1)
        (c :: r.1, .presented c.question :: .invalid :: r.2)
      | some p =>
        if 0 < j + 1 ∧ N ∣ (j + 1) then
          if choiceIsY (script.tail.tail.headD "") then
            let r := amendedSessionModel N now rest script.tail.tail.tail (j + 1)
            (c.update p (some now) :: r.1,
              .presented c.question :: .reviewed c.question ::
                .prompted (j + 1) :: r.2)
          else
            (c.update p (some now) :: rest,
              [.presented c.question, .reviewed c.question, .prompted (j + 1)])
        else
          let r := amendedSessionModel N now rest script.tail.tail (j + 1)
          (c.update p (some now) :: r.1,
            .presented c.question :: .reviewed c.question :: r.2)
    else
      let r := amendedSessionModel N now rest script j
      (c :: r.1, r.2)

/-! ## Theorems -/

/-- For in-range performance the `u32` subtraction does not wrap. -/
theorem wrapSub32_eq_sub {p : Nat} (h : p ≤ 5) : wrapSub32 5 p = 5 - p := by
  unfold wrapSub32 U32MOD
  omega

/-- The branch of step 1 never touches `ease_factor`, so the ease formula sees
the pre-update value; this unfolds `update`'s ease field. -/
theorem update_ease_factor_eq (c : Flashcard) (p : Nat) (clock : Option Nat) :
    (c.update p clock).ease_factor =
      max (13/10) (c.ease_factor + 1/10 - (wrapSub32 5 p : ℚ) * (2/25)) := by
  unfold Flashcard.update
  match p with
  | 0 => rfl
  | 1 => rfl
  | _ + 2 => rfl

/-- `ease_factor` is at least `1.3` after any single update. -/
theorem ease_factor_floor (c : Flashcard) (p : Nat) (clock : Option Nat) :
    (13/10 : ℚ) ≤ (c.update p clock).ease_factor := by
  rw [update_ease_factor_eq]
  exact le_max_left _ _

/-- C2: for every card and every performance in `[0,5]`, step 1 of `update`
sets `interval`/`repetitions` exactly as the spec states: performance `0`
gives `interval 1`, `repetitions 0`; performance `1` gives `interval 1` and
leaves `repetitions` unchanged; performance `≥ 2` gives `interval 1` when
`repetitions` was `0`, `6` when it was `1`, otherwise
`round(interval * ease_factor)`, and then increments `repetitions`. -/
theorem update_interval_repetitions_spec (c : Flashcard) (p : Nat)
    (clock : Option Nat) (hp : p ≤ 5) :
    (p = 0 → (c.update p clock).interval = 1 ∧ (c.update p clock).repetitions = 0) ∧
    (p = 1 → (c.update p clock).interval = 1 ∧
      (c.update p clock).repetitions = c.repetitions) ∧
    (2 ≤ p →
      (c.update p clock).interval =
        (if c.repetitions = 0 then 1
         else if c.repetitions = 1 then 6
         else (rustRound ((c.interval : ℚ) * c.ease_factor)).toNat) ∧
      (c.update p clock).repetitions = c.repetitions + 1) := by
  refine ⟨fun h0 => ?_, fun h1 => ?_, fun h2 => ?_⟩
  · subst h0; exact ⟨rfl, rfl⟩
  · subst h1; exact ⟨rfl, rfl⟩
  · match p, h2 with
    | n + 2, _ => exact ⟨rfl, rfl⟩

/-- Witness for `update_interval_repetitions_spec` at a concrete input. -/
theorem update_interval_repetitions_spec_witness :
    ((Flashcard.new "Q" "A" "G").update 3 (some 100)).repetitions = 1 := by
  have h := update_interval_repetitions_spec (Flashcard.new "Q" "A" "G") 3
    (some 100) (by decide)
  have h2 := (h.2.2 (by decide)).2
  simpa [Flashcard.new] using h2

/-- C3: in every branch, `update` sets
`ease_factor = max(1.3, ease_factor + 0.1 - (5 - performance) * 0.08)` from
the pre-update `ease_factor`, and `ease_factor` never drops below `1.3` after
any nonempty sequence of consecutive updates. -/
theorem update_ease_factor_spec :
    (∀ (c : Flashcard) (p : Nat) (clock : Option Nat), p ≤ 5 →
      (c.update p clock).ease_factor =
        max (13/10) (c.ease_factor + 1/10 - ((5 - p : Nat) : ℚ) * (2/25))) ∧
    (∀ (c : Flashcard) (ps : List Nat) (clock : Option Nat), ps ≠ [] →
      (13/10 : ℚ) ≤ (ps.foldl (fun acc p => acc.update p clock) c).ease_factor) := by
  constructor
  · intro c p clock hp
    rw [update_ease_factor_eq, wrapSub32_eq_sub hp]
  · intro c ps clock hne
    induction ps generalizing c with
    | nil => exact absurd rfl hne
    | cons p rest ih =>
      match rest with
      | [] => simpa using ease_factor_floor c p clock
      | q :: rest' => simpa using ih (c.update p clock) (by simp)

/-- Witness for `update_ease_factor_spec` at concrete inputs. -/
theorem update_ease_factor_spec_witness :
    ((Flashcard.new "Q" "A" "G").update 0 (some 7)).ease_factor =
      max (13/10) ((Flashcard.new "Q" "A" "G").ease_factor + 1/10 -
        ((5 - 0 : Nat) : ℚ) * (2/25)) ∧
    (13/10 : ℚ) ≤
      (([0, 0, 0] : List Nat).foldl
        (fun acc p => acc.update p (some 7)) (Flashcard.new "Q" "A" "G")).ease_factor :=
  ⟨update_ease_factor_spec.1 (Flashcard.new "Q" "A" "G") 0 (some 7) (by decide),
   update_ease_factor_spec.2 (Flashcard.new "Q" "A" "G") [0, 0, 0] (some 7) (by decide)⟩

/-- C6: step 3 sets `next_review` to the clock reading plus the post-step-1
`interval` times `86400`; on a failed clock read the source stores `0`
instead of surfacing the failure. -/
theorem update_next_review_spec (c : Flashcard) (p : Nat) (n : Nat) :
    (c.update p (some n)).next_review =
      n + (c.update p (some n)).interval * 86400 ∧
    (c.update p none).next_review = 0 := by
  constructor
  · unfold Flashcard.update
    match p with
    | 0 => rfl
    | 1 => rfl
    | _ + 2 => rfl
  · unfold Flashcard.update
    match p with
    | 0 => rfl
    | 1 => rfl
    | _ + 2 => rfl

/-! ### Decimal `Nat.repr` is injective (needed for key freshness) -/

theorem toDigitsCore_append (fuel n : Nat) (ds : List Char) :
    Nat.toDigitsCore 10 fuel n ds = Nat.toDigitsCore 10 fuel n [] ++ ds := by
  induction fuel generalizing n ds with
  | zero => simp [Nat.toDigitsCore]
  | succ fuel ih =>
    simp only [Nat.toDigitsCore]
    by_cases h : n / 10 = 0
    · simp [h]
    · simp only [h, if_neg h]
      rw [ih (n / 10) (Nat.digitChar (n % 10) :: ds), ih (n / 10) [Nat.digitChar (n % 10)]]
      simp

theorem digitChar_decode : ∀ m, m < 10 → (Nat.digitChar m).toNat - 48 = m := by decide

theorem decode_toDigitsCore (fuel : Nat) : ∀ n, n < fuel →
    decodeDigits (Nat.toDigitsCore 10 fuel n []) = n := by
  induction fuel with
  | zero => intro n h; omega
  | succ fuel ih =>
    intro n h
    simp only [Nat.toDigitsCore]
    by_cases h0 : n / 10 = 0
    · simp only [h0, if_pos]
      have hn : n < 10 := by omega
      simp [decodeDigits, digitChar_decode (n % 10) (Nat.mod_lt _ (by omega))]
      omega
    · simp only [if_neg h0]
      rw [toDigitsCore_append]
      have hlt : n / 10 < fuel := by
        have : n / 10 < n := Nat.div_lt_self (by omega) (by omega)
        omega
      simp only [decodeDigits] at *
      rw [List.foldl_append]
      rw [ih (n / 10) hlt]
      simp [digitChar_decode (n % 10) (Nat.mod_lt _ (by omega))]
      omega

theorem decode_repr (n : Nat) : decodeDigits (Nat.repr n).data = n := by
  show decodeDigits (Nat.toDigits 10 n).asString.data = n
  have h : (Nat.toDigits 10 n).asString.data = Nat.toDigits 10 n := rfl
  rw [h]
  exact decode_toDigitsCore (n + 1) n (Nat.lt_succ_self n)

theorem repr_injective : Function.Injective Nat.repr := by
  intro m n h
  have hm := decode_repr m
  rw [h, decode_repr] at hm
  omega

/-! ### Freshness of the disambiguated key -/

theorem candidate_length (q : String) (k : Nat) :
    (candidate q (k + 1)).length = q.length + 2 + (Nat.repr (k + 1)).length + 1 := by
  simp only [candidate, String.length_append]
  have h1 : (" (" : String).length = 2 := rfl
  have h2 : (")" : String).length = 1 := rfl
  omega

theorem candidate_injective (q : String) : Function.Injective (candidate q) := by
  intro i j h
  match i, j with
  | 0, 0 => rfl
  | 0, j + 1 =>
    exfalso
    have hl := congrArg String.length h
    rw [candidate_length] at hl
    simp only [candidate] at hl
    omega
  | i + 1, 0 =>
    exfalso
    have hl := congrArg String.length h
    rw [candidate_length] at hl
    simp only [candidate] at hl
    omega
  | i + 1, j + 1 =>
    simp only [candidate] at h
    have hd := congrArg String.data h
    simp only [String.data_append] at hd
    have h3 := List.append_cancel_right hd
    have h4 := List.append_cancel_left h3
    have h5 : Nat.repr (i + 1) = Nat.repr (j + 1) := String.ext h4
    have h6 := repr_injective h5
    omega

/-- Pigeonhole: among the first `keys.length + 1` candidate keys one is
free. -/
theorem exists_fresh (keys : List String) (q : String) :
    ∃ j, j ≤ keys.length ∧ candidate q j ∉ keys := by
  by_contra hc
  push_neg at hc
  have hsub : (Finset.range (keys.length + 1)).image (candidate q) ⊆ keys.toFinset := by
    intro x hx
    simp only [Finset.mem_image, Finset.mem_range] at hx
    obtain ⟨j, hj, rfl⟩ := hx
    exact List.mem_toFinset.mpr (hc j (by omega))
  have hcard := Finset.card_le_card hsub
  rw [Finset.card_image_of_injOn (Set.injOn_of_injective (candidate_injective q))] at hcard
  simp only [Finset.card_range] at hcard
  have hle := List.toFinset_card_le keys
  omega

theorem disambigLoop_result (keys : List String) (q : String) :
    ∀ fuel k, ∃ m, disambigLoop keys q fuel k = candidate q m := by
  intro fuel
  induction fuel with
  | zero => intro k; exact ⟨k, rfl⟩
  | succ fuel ih =>
    intro k
    simp only [disambigLoop]
    by_cases h : candidate q k ∈ keys
    · simpa [h] using ih (k + 1)
    · exact ⟨k, by simp [h]⟩

theorem disambigLoop_not_mem (keys : List String) (q : String) :
    ∀ fuel k, (∃ j, j < fuel ∧ candidate q (k + j) ∉ keys) →
      disambigLoop keys q fuel k ∉ keys := by
  intro fuel
  induction fuel with
  | zero =>
    intro k ⟨j, hj, _⟩
    omega
  | succ fuel ih =>
    intro k ⟨j, hj, hfree⟩
    simp only [disambigLoop]
    by_cases h : candidate q k ∈ keys
    · simp only [h, if_pos]
      apply ih
      match j, hj with
      | 0, _ => exact absurd h (by simpa using hfree)
      | j' + 1, hj =>
        exact ⟨j', by omega, by have heq : k + 1 + j' = k + (j' + 1) := by omega
                                rw [heq]; exact hfree⟩
    · simp [h]

/-- The key `add_flashcard` inserts is never an existing key. -/
theorem disambiguate_not_mem (keys : List String) (q : String) :
    disambiguate keys q ∉ keys := by
  obtain ⟨j, hj, hfree⟩ := exists_fresh keys q
  exact disambigLoop_not_mem keys q (keys.length + 1) 0 ⟨j, by omega, by simpa using hfree⟩

theorem disambiguate_result (keys : List String) (q : String) :
    ∃ m, disambiguate keys q = candidate q m :=
  disambigLoop_result keys q (keys.length + 1) 0

/-! ### Store lemmas -/

theorem lookup_eq_none_of_not_mem {s : Store} {k : String}
    (h : k ∉ Store.keys s) : s.lookup k = none := by
  induction s with
  | nil => rfl
  | cons kv rest ih =>
    obtain ⟨k', c'⟩ := kv
    simp only [Store.keys, List.map_cons, List.mem_cons, not_or] at h
    obtain ⟨h1, h2⟩ := h
    simp only [Store.lookup]
    rw [if_neg (Ne.symm h1)]
    exact ih h2

theorem lookup_eq_some_iff {s : Store} (hnd : (Store.keys s).Nodup)
    (q : String) (c : Flashcard) :
    s.lookup q = some c ↔ (q, c) ∈ s := by
  induction s with
  | nil => simp [Store.lookup]
  | cons kv rest ih =>
    obtain ⟨k', c'⟩ := kv
    simp only [Store.keys, List.map_cons, List.nodup_cons] at hnd
    obtain ⟨hk', hrest⟩ := hnd
    simp only [Store.lookup, List.mem_cons]
    by_cases hk : k' = q
    · subst hk
      rw [if_pos rfl]
      constructor
      · intro h
        exact Or.inl (by rw [Option.some_inj.mp h])
      · rintro (h | h)
        · rw [Prod.mk.injEq] at h
          rw [h.2]
        · exact absurd (by simpa using List.mem_map_of_mem Prod.fst h) hk'
    · rw [if_neg hk, ih hrest]
      constructor
      · exact Or.inr
      · rintro (h | h)
        · exact absurd (congrArg Prod.fst h) (fun he => hk (by simpa using he.symm))
        · exact h

/-- C8: `add_flashcard` never overwrites: on a store with unique keys it
appends a single new entry under a key that is the question itself or the
question suffixed with a counter `" (i)"`, the new key differs from every
existing key, and the keys stay unique. -/
theorem add_flashcard_disambiguates (s : Store) (question answer guidance : String)
    (hnd : (Store.keys s).Nodup) :
    ∃ k,
      addFlashcard s question answer guidance =
        s ++ [(k, Flashcard.new k answer guidance)] ∧
      k ∉ Store.keys s ∧
      (k = question ∨ ∃ i, 1 ≤ i ∧ k = question ++ " (" ++ Nat.repr i ++ ")") ∧
      (Store.keys (addFlashcard s question answer guidance)).Nodup := by
  have hnone := lookup_eq_none_of_not_mem (disambiguate_not_mem (Store.keys s) question)
  refine ⟨disambiguate (Store.keys s) question, ?_, ?_, ?_, ?_⟩
  · simp only [addFlashcard, hashInsert, hnone]
    rfl
  · exact disambiguate_not_mem (Store.keys s) question
  · obtain ⟨m, hm⟩ := disambiguate_result (Store.keys s) question
    match m with
    | 0 => exact Or.inl hm
    | i + 1 => exact Or.inr ⟨i + 1, by omega, hm⟩
  · simp only [addFlashcard, hashInsert, hnone, Option.isSome_none, Bool.false_eq_true,
      if_false]
    simp only [Store.keys, List.map_append, List.map_cons, List.map_nil]
    rw [List.nodup_append]
    refine ⟨hnd, List.nodup_singleton _, ?_⟩
    intro a ha hb
    simp only [List.mem_singleton] at hb
    subst hb
    exact disambiguate_not_mem (Store.keys s) question ha

/-- Witness for `add_flashcard_disambiguates`: adding a colliding question to
a concrete one-card store. -/
theorem add_flashcard_disambiguates_witness :
    ∃ k,
      addFlashcard [("Q", Flashcard.new "Q" "A" "G")] "Q" "B" "H" =
        [("Q", Flashcard.new "Q" "A" "G")] ++ [(k, Flashcard.new k "B" "H")] ∧
      k ∉ Store.keys [("Q", Flashcard.new "Q" "A" "G")] ∧
      (k = "Q" ∨ ∃ i, 1 ≤ i ∧ k = "Q" ++ " (" ++ Nat.repr i ++ ")") ∧
      (Store.keys (addFlashcard [("Q", Flashcard.new "Q" "A" "G")] "Q" "B" "H")).Nodup :=
  add_flashcard_disambiguates [("Q", Flashcard.new "Q" "A" "G")] "Q" "B" "H" (by decide)

/-- C7: import-line handling.  A line whose parse is `none` (trimmed-empty or
not exactly three `~`-fields) leaves the store unchanged; a line splitting
into exactly three fields parses to the three fields trimmed, and is added
as a card; the spec's three-line example file yields exactly the two cards
`Q1` and `Q2`, with `Q2`'s fields trimmed. -/
theorem import_line_spec :
    (∀ (st : Store) (line : String), parseLine line = none → processLine st line = st) ∧
    (∀ line : String, (rustTrim line).data = [] → parseLine line = none) ∧
    (∀ line : String,
      ((splitTilde (rustTrim line).data).map List.asString).length ≠ 3 →
        parseLine line = none) ∧
    (∀ line q a g : String,
      (splitTilde (rustTrim line).data).map List.asString = [q, a, g] →
        parseLine line = some (rustTrim q, rustTrim a, rustTrim g)) ∧
    (∀ (st : Store) (line : String) (q a g : String),
      parseLine line = some (q, a, g) → processLine st line = addFlashcard st q a g) ∧
    batchAddFlashcards [] ["Q1~A1~G1", "bad line no tildes", " Q2 ~ A2 ~ G2 "] =
      [("Q1", Flashcard.new "Q1" "A1" "G1"), ("Q2", Flashcard.new "Q2" "A2" "G2")] := by
  refine ⟨?_, ?_, ?_, ?_, ?_, ?_⟩
  · intro st line h
    unfold processLine
    rw [h]
  · intro line h
    unfold parseLine
    simp [h]
  · intro line h
    unfold parseLine
    by_cases he : (rustTrim line).data = []
    · simp [he]
    · simp only [if_neg he]
      split
      · rename_i q' a' g' heq
        rw [heq] at h
        simp at h
      · rfl
  · intro line q a g h
    unfold parseLine
    by_cases he : (rustTrim line).data = []
    · rw [he] at h
      simp [splitTilde] at h
    · simp only [if_neg he]
      split
      · rename_i q' a' g' heq
        rw [heq] at h
        injection h with h1 h
        injection h with h2 h
        injection h with h3 h
        subst h1; subst h2; subst h3
        rfl
      · rename_i hne
        exact absurd h (hne q a g)
  · intro st line q a g h
    unfold processLine
    rw [h]
  · rfl

/-- Witness for `import_line_spec` on concrete lines. -/
theorem import_line_spec_witness :
    processLine [] "bad line no tildes" = [] ∧
    parseLine " Q2 ~ A2 ~ G2 " =
      some (rustTrim "Q2 ", rustTrim " A2 ", rustTrim " G2") :=
  ⟨import_line_spec.1 [] "bad line no tildes" (by decide),
   import_line_spec.2.2.2.1 " Q2 ~ A2 ~ G2 " "Q2 " " A2 " " G2" (by decide)⟩

/-! ### Save/load round trip -/

theorem load_aux (l : List Flashcard) :
    ∀ st : Store, (∀ c ∈ l, c.question ∉ Store.keys st) →
      (l.map (fun c => c.question)).Nodup →
      l.foldl (fun st c => hashInsert st c.question c) st =
        st ++ l.map (fun c => (c.question, c)) := by
  induction l with
  | nil =>
    intro st _ _
    simp
  | cons c rest ih =>
    intro st hdisj hnd
    simp only [List.foldl_cons]
    have hnotin : c.question ∉ Store.keys st := hdisj c (List.mem_cons_self c rest)
    have hins : hashInsert st c.question c = st ++ [(c.question, c)] := by
      unfold hashInsert
      rw [lookup_eq_none_of_not_mem hnotin]
      rfl
    rw [hins]
    simp only [List.map_cons, List.nodup_cons] at hnd
    have hsub : ∀ d ∈ rest, d.question ∉ Store.keys (st ++ [(c.question, c)]) := by
      intro d hd
      simp only [Store.keys, List.map_append, List.map_cons, List.map_nil,
        List.mem_append, List.mem_singleton, not_or]
      refine ⟨hdisj d (List.mem_cons_of_mem c hd), ?_⟩
      intro he
      exact hnd.1 (he ▸ List.mem_map_of_mem (fun x => x.question) hd)
    rw [ih (st ++ [(c.question, c)]) hsub hnd.2]
    simp

theorem load_eq (l : List Flashcard) (hnd : (l.map (fun c => c.question)).Nodup) :
    load l = l.map (fun c => (c.question, c)) := by
  unfold load
  rw [load_aux l [] (by simp [Store.keys]) hnd]
  simp

theorem option_ext {α : Type} {a b : Option α}
    (h : ∀ x, a = some x ↔ b = some x) : a = b := by
  cases a with
  | none =>
    cases b with
    | none => rfl
    | some x => exact (h x).mpr rfl
  | some x => exact ((h x).mp rfl).symm

/-- C9: saving a store with unique keys (each card stored under its own
question) and loading any reordering of the saved record sequence
reproduces an equivalent mapping: the same key set, and the same card under
every key. -/
theorem save_load_round_trip (s : Store) (l : List Flashcard)
    (hnd : (Store.keys s).Nodup)
    (hq : ∀ kv ∈ s, (kv.2).question = kv.1)
    (hperm : l.Perm (save s)) :
    (Store.keys (load l)).Perm (Store.keys s) ∧
    ∀ q : String, (load l).lookup q = s.lookup q := by
  have hmapeq : (save s).map (fun c => c.question) = Store.keys s := by
    unfold save Store.keys
    rw [List.map_map]
    exact List.map_congr_left (fun kv hkv => hq kv hkv)
  have hpermq : (l.map (fun c => c.question)).Perm (Store.keys s) := by
    rw [← hmapeq]
    exact hperm.map _
  have hlnd : (l.map (fun c => c.question)).Nodup := hpermq.nodup_iff.mpr hnd
  have hload := load_eq l hlnd
  have hkeys : Store.keys (load l) = l.map (fun c => c.question) := by
    rw [hload]
    unfold Store.keys
    rw [List.map_map]
    rfl
  constructor
  · rw [hkeys]
    exact hpermq
  · intro q
    apply option_ext
    intro c
    rw [lookup_eq_some_iff (by rw [hkeys]; exact hlnd) q c,
      lookup_eq_some_iff hnd q c, hload]
    constructor
    · intro h
      obtain ⟨d, hd, hdc⟩ := List.mem_map.mp h
      rw [Prod.mk.injEq] at hdc
      obtain ⟨h1, h2⟩ := hdc
      rw [h2] at hd h1
      have hcs : c ∈ save s := hperm.mem_iff.mp hd
      obtain ⟨kv, hkv, hkvc⟩ := List.mem_map.mp hcs
      obtain ⟨k1, c1⟩ := kv
      have hk1 : k1 = q := by
        have := hq (k1, c1) hkv
        simp only at this hkvc
        rw [← h1, ← hkvc, this]
      subst hk1
      have hc1 : c1 = c := hkvc
      subst hc1
      exact hkv
    · intro h
      have hcq : c.question = q := hq (q, c) h
      have hcs : c ∈ save s := List.mem_map_of_mem Prod.snd h
      have hcl : c ∈ l := hperm.mem_iff.mpr hcs
      exact List.mem_map.mpr ⟨c, hcl, by rw [hcq]⟩

/-- Witness for `save_load_round_trip`: a concrete two-card store reloaded
from its reversed record sequence. -/
theorem save_load_round_trip_witness :
    (Store.keys (load [Flashcard.new "B" "u" "v", Flashcard.new "A" "x" "y"])).Perm
      (Store.keys [("A", Flashcard.new "A" "x" "y"), ("B", Flashcard.new "B" "u" "v")]) ∧
    ∀ q : String,
      (load [Flashcard.new "B" "u" "v", Flashcard.new "A" "x" "y"]).lookup q =
        Store.lookup [("A", Flashcard.new "A" "x" "y"), ("B", Flashcard.new "B" "u" "v")] q :=
  save_load_round_trip
    [("A", Flashcard.new "A" "x" "y"), ("B", Flashcard.new "B" "u" "v")]
    [Flashcard.new "B" "u" "v", Flashcard.new "A" "x" "y"]
    (by decide) (by decide)
    (List.Perm.swap (Flashcard.new "A" "x" "y") (Flashcard.new "B" "u" "v") [])

/-! ### Review-session lemmas -/

theorem runSession_nil (N now : Nat) (script : List String) (count : Nat) :
    runSession N now [] script count = ([], []) := rfl

theorem presentedOf_cons_presented (q : String) (t : List SessionEvent) :
    presentedOf (.presented q :: t) = q :: presentedOf t := rfl

theorem presentedOf_cons_invalid (t : List SessionEvent) :
    presentedOf (.invalid :: t) = presentedOf t := rfl

theorem presentedOf_cons_reviewed (q : String) (t : List SessionEvent) :
    presentedOf (.reviewed q :: t) = presentedOf t := rfl

theorem presentedOf_cons_prompted (k : Nat) (t : List SessionEvent) :
    presentedOf (.prompted k :: t) = presentedOf t := rfl

/-- With an empty input script every score read is `""`, which fails to
parse, so no prompt ever fires, the loop never breaks, and every due card
(in vector order) is presented. -/
theorem runSession_empty_script (N now : Nat) :
    ∀ (cards : List Flashcard) (count : Nat),
      presentedOf (runSession N now cards [] count).2 =
        (cards.filter (fun c => c.next_review ≤ now)).map Flashcard.question := by
  intro cards
  induction cards with
  | nil => intro count; rfl
  | cons c rest ih =>
    intro count
    by_cases hdue : c.next_review ≤ now
    · have hparse : parseU32 (([] : List String).tail.headD "") = none := rfl
      simp only [runSession, if_pos hdue, hparse]
      simp only [presentedOf_cons_presented, presentedOf_cons_invalid]
      rw [List.filter_cons_of_pos (by simpa using hdue), List.map_cons]
      exact congrArg _ (ih (count + 1))
    · simp only [runSession, if_neg hdue]
      rw [List.filter_cons_of_neg (by simpa using hdue)]
      exact ih count

/-- Whatever the input script, the presented questions are an initial
segment of the due questions in sorted-vector order: a batch-boundary stop
only cuts off a tail, and never presents a non-due card. -/
theorem runSession_presented_front (N now : Nat) :
    ∀ (cards : List Flashcard) (script : List String) (count : Nat),
      ∃ t, presentedOf (runSession N now cards script count).2 ++ t =
        (cards.filter (fun c => c.next_review ≤ now)).map Flashcard.question := by
  intro cards
  induction cards with
  | nil => intro script count; exact ⟨[], rfl⟩
  | cons c rest ih =>
    intro script count
    by_cases hdue : c.next_review ≤ now
    · cases hp : parseU32 (script.tail.headD "") with
      | none =>
        obtain ⟨t, ht⟩ := ih script.tail.tail (count + 1)
        refine ⟨t, ?_⟩
        simp only [runSession, if_pos hdue, hp]
        simp only [presentedOf_cons_presented, presentedOf_cons_invalid]
        rw [List.filter_cons_of_pos (by simpa using hdue), List.map_cons, List.cons_append, ht]
      | some p =>
        by_cases hmod : (count + 1) % N = 0
        · by_cases hy : choiceIsY (script.tail.tail.headD "")
          · obtain ⟨t, ht⟩ := ih script.tail.tail.tail (count + 1)
            refine ⟨t, ?_⟩
            simp only [runSession, if_pos hdue, hp, if_pos hmod, if_pos hy]
            simp only [presentedOf_cons_presented, presentedOf_cons_reviewed,
              presentedOf_cons_prompted]
            rw [List.filter_cons_of_pos (by simpa using hdue), List.map_cons,
              List.cons_append, ht]
          · refine ⟨(rest.filter (fun d => d.next_review ≤ now)).map Flashcard.question, ?_⟩
            simp only [runSession, if_pos hdue, hp, if_pos hmod, if_neg hy]
            simp only [presentedOf_cons_presented, presentedOf_cons_reviewed,
              presentedOf_cons_prompted]
            rw [List.filter_cons_of_pos (by simpa using hdue), List.map_cons]
            rfl
        · obtain ⟨t, ht⟩ := ih script.tail.tail (count + 1)
          refine ⟨t, ?_⟩
          simp only [runSession, if_pos hdue, hp, if_neg hmod]
          simp only [presentedOf_cons_presented, presentedOf_cons_reviewed]
          rw [List.filter_cons_of_pos (by simpa using hdue), List.map_cons,
            List.cons_append, ht]
    · obtain ⟨t, ht⟩ := ih script count
      refine ⟨t, ?_⟩
      simp only [runSession, if_neg hdue]
      rw [List.filter_cons_of_neg (by simpa using hdue)]
      exact ht

/-- C4: the session reviews exactly the due cards (`next_review <= now`),
in ascending `next_review` order.  `selectDue` contains exactly the due
cards; it is sorted; whatever the input script, the presented questions are
an initial segment of it (so a non-due card is never presented); and a run
whose prompts are never affirmed (here: the empty script, on which every
score read fails to parse and no prompt fires) presents exactly the due
questions in that order.  Tie order is the (deterministic) stable-sort
order inherited from the card vector. -/
theorem review_selects_due_sorted (N now : Nat) (cards : List Flashcard) :
    (selectDue cards now).Perm (cards.filter (fun c => c.next_review ≤ now)) ∧
    List.Sorted nrLE (selectDue cards now) ∧
    (∀ script : List String,
      ∃ t, presentedOf (reviewFlashcards N now cards script).2 ++ t =
        (selectDue cards now).map Flashcard.question) ∧
    presentedOf (reviewFlashcards N now cards []).2 =
      (selectDue cards now).map Flashcard.question := by
  refine ⟨?_, ?_, ?_, ?_⟩
  · exact List.Perm.filter _ (List.perm_insertionSort nrLE cards)
  · exact List.Pairwise.sublist (List.filter_sublist _)
      (List.sorted_insertionSort nrLE cards)
  · intro script
    exact runSession_presented_front N now (sortByNextReview cards) script 0
  · exact runSession_empty_script N now (sortByNextReview cards) 0

/-- The continue-prompt only ever fires at values of `review_count` that are
positive multiples of the batch size and exceed the count at loop entry. -/
theorem runSession_prompts_divisible (N now : Nat) :
    ∀ (cards : List Flashcard) (script : List String) (count : Nat),
      ∀ k ∈ promptsOf (runSession N now cards script count).2,
        count < k ∧ N ∣ k := by
  intro cards
  induction cards with
  | nil =>
    intro script count k hk
    simp [runSession_nil, promptsOf] at hk
  | cons c rest ih =>
    intro script count k hk
    by_cases hdue : c.next_review ≤ now
    · cases hp : parseU32 (script.tail.headD "") with
      | none =>
        simp only [runSession, if_pos hdue, hp] at hk
        simp only [promptsOf, List.filterMap_cons] at hk
        obtain ⟨h1, h2⟩ := ih script.tail.tail (count + 1) k (by simpa [promptsOf] using hk)
        exact ⟨by omega, h2⟩
      | some p =>
        by_cases hmod : (count + 1) % N = 0
        · by_cases hy : choiceIsY (script.tail.tail.headD "")
          · simp only [runSession, if_pos hdue, hp, if_pos hmod, if_pos hy] at hk
            simp only [promptsOf, List.filterMap_cons, List.mem_cons] at hk
            rcases hk with hk | hk
            · exact ⟨by omega, hk ▸ Nat.dvd_of_mod_eq_zero hmod⟩
            · obtain ⟨h1, h2⟩ := ih script.tail.tail.tail (count + 1) k
                (by simpa [promptsOf] using hk)
              exact ⟨by omega, h2⟩
          · simp only [runSession, if_pos hdue, hp, if_pos hmod, if_neg hy] at hk
            simp only [promptsOf, List.filterMap_cons, List.filterMap_nil,
              List.mem_cons, List.not_mem_nil, or_false] at hk
            exact ⟨by omega, hk ▸ Nat.dvd_of_mod_eq_zero hmod⟩
        · simp only [runSession, if_pos hdue, hp, if_neg hmod] at hk
          simp only [promptsOf, List.filterMap_cons] at hk
          obtain ⟨h1, h2⟩ := ih script.tail.tail (count + 1) k
            (by simpa [promptsOf] using hk)
          exact ⟨by omega, h2⟩
    · simp only [runSession, if_neg hdue] at hk
      exact ih script count k hk

/-- C5 (counterexample): with batch size 2 and two due cards, an invalid
score on the first card still advances `review_count`, so after the second
presented card — only the FIRST card actually reviewed — the continue-prompt
fires.  The claim as stated (prompt exactly after every 2 reviewed cards)
requires no prompt in this run. -/
theorem batch_prompt_counts_skipped_reviews :
    reviewedOf (reviewFlashcards 2 100
      [Flashcard.new "Q1" "A1" "G1", Flashcard.new "Q2" "A2" "G2"]
      ["", "x", "", "3", "n"]).2 = ["Q2"] ∧
    promptsOf (reviewFlashcards 2 100
      [Flashcard.new "Q1" "A1" "G1", Flashcard.new "Q2" "A2" "G2"]
      ["", "x", "", "3", "n"]).2 = [2] := by
  constructor
  · decide
  · decide

theorem mod_eq_zero_of_dvd_nat {N k : Nat} (h : N ∣ k) : k % N = 0 := by
  obtain ⟨t, ht⟩ := h
  rw [ht]
  exact Nat.mul_mod_right N t

/-- The source's batch-boundary guard `review_count % batch_size == 0`
coincides with "the counter is a positive multiple of `N`" (also at `N = 0`,
where neither side ever holds for a positive counter). -/
theorem batch_guard_iff (N count : Nat) :
    (count + 1) % N = 0 ↔ (0 < count + 1 ∧ N ∣ (count + 1)) := by
  constructor
  · intro h
    exact ⟨Nat.succ_pos count, Nat.dvd_of_mod_eq_zero h⟩
  · intro ⟨_, h2⟩
    exact mod_eq_zero_of_dvd_nat h2

/-- The loop of `review_flashcards` behaves, on every input, exactly as the
amended batching description (`amendedSessionModel`) says. -/
theorem runSession_eq_amendedSessionModel (N now : Nat) :
    ∀ (cards : List Flashcard) (script : List String) (count : Nat),
      runSession N now cards script count =
        amendedSessionModel N now cards script count := by
  intro cards
  induction cards with
  | nil => intro script count; rfl
  | cons c rest ih =>
    intro script count
    by_cases hdue : c.next_review ≤ now
    · cases hp : parseU32 (script.tail.headD "") with
      | none =>
        simp only [runSession, amendedSessionModel, if_pos hdue, hp]
        rw [ih]
      | some p =>
        by_cases hmod : (count + 1) % N = 0
        · have hg : 0 < count + 1 ∧ N ∣ (count + 1) := (batch_guard_iff N count).mp hmod
          by_cases hy : choiceIsY (script.tail.tail.headD "")
          · simp only [runSession, amendedSessionModel, if_pos hdue, hp, if_pos hmod,
              if_pos hg, if_pos hy]
            rw [ih]
          · simp only [runSession, amendedSessionModel, if_pos hdue, hp, if_pos hmod,
              if_pos hg, if_neg hy]
        · have hg : ¬(0 < count + 1 ∧ N ∣ (count + 1)) :=
            fun h => hmod ((batch_guard_iff N count).mpr h)
          simp only [runSession, amendedSessionModel, if_pos hdue, hp, if_neg hmod,
            if_neg hg]
          rw [ih]
    · simp only [runSession, amendedSessionModel, if_neg hdue]
      rw [ih]

/-- Whenever a presented card's score parses and the counter has reached a
multiple of the batch size, the continue-prompt does fire. -/
theorem runSession_prompt_fires (N now : Nat) (c : Flashcard)
    (rest : List Flashcard) (script : List String) (count p : Nat)
    (hdue : c.next_review ≤ now)
    (hp : parseU32 (script.tail.headD "") = some p)
    (hdvd : N ∣ (count + 1)) :
    SessionEvent.prompted (count + 1) ∈
      (runSession N now (c :: rest) script count).2 := by
  have hmod : (count + 1) % N = 0 := mod_eq_zero_of_dvd_nat hdvd
  by_cases hy : choiceIsY (script.tail.tail.headD "")
  · simp only [runSession, if_pos hdue, hp, if_pos hmod, if_pos hy, List.mem_cons]
    simp
  · simp only [runSession, if_pos hdue, hp, if_pos hmod, if_neg hy, List.mem_cons]
    simp

/-- A negative answer at a prompt ends the session on the spot: the trace
stops at that prompt (no further card is presented) and the final card
states are exactly the current card's update followed by the remaining
cards untouched. -/
theorem runSession_negative_answer_stops (N now : Nat) (c : Flashcard)
    (rest : List Flashcard) (script : List String) (count p : Nat)
    (hdue : c.next_review ≤ now)
    (hp : parseU32 (script.tail.headD "") = some p)
    (hdvd : N ∣ (count + 1))
    (hy : choiceIsY (script.tail.tail.headD "") = false) :
    runSession N now (c :: rest) script count =
      (c.update p (some now) :: rest,
        [.presented c.question, .reviewed c.question, .prompted (count + 1)]) := by
  have hmod : (count + 1) % N = 0 := mod_eq_zero_of_dvd_nat hdvd
  have hy' : ¬(choiceIsY (script.tail.tail.headD "") = true) := by
    rw [hy]
    exact Bool.false_ne_true
  simp only [runSession, if_pos hdue, hp, if_pos hmod, if_neg hy']

/-- C5 (amended): the batch counter counts presented due cards, including
ones skipped for an invalid score, and the continue-prompt fires after a
presented card exactly when that counter is a positive multiple of `N` and
the current card's score parsed (with valid inputs: exactly every `N`
reviewed cards).  This holds on every input: the session loop equals the
amended description `amendedSessionModel`; the prompt fires only at
positive multiples of `N` of the counter, and always fires when a scored
card brings the counter to such a multiple; a negative answer always ends
the session at that prompt, with the final (persisted) states exactly the
updates applied before the stop and the remaining cards untouched.  In the
spec's own scenario — batch size 2, 3 due cards, valid scores, answering
`n` — the prompt fires exactly once, after the 2nd review, the 3rd card is
never presented, and only the first two cards are updated. -/
theorem batch_prompt_amended :
    (∀ (N now : Nat) (cards : List Flashcard) (script : List String) (count : Nat),
      runSession N now cards script count =
        amendedSessionModel N now cards script count) ∧
    (∀ (N now : Nat) (cards : List Flashcard) (script : List String),
      ∀ k ∈ promptsOf (reviewFlashcards N now cards script).2, N ∣ k ∧ 0 < k) ∧
    (∀ (N now : Nat) (c : Flashcard) (rest : List Flashcard)
        (script : List String) (count p : Nat),
      c.next_review ≤ now → parseU32 (script.tail.headD "") = some p →
      N ∣ (count + 1) →
      SessionEvent.prompted (count + 1) ∈
        (runSession N now (c :: rest) script count).2) ∧
    (∀ (N now : Nat) (c : Flashcard) (rest : List Flashcard)
        (script : List String) (count p : Nat),
      c.next_review ≤ now → parseU32 (script.tail.headD "") = some p →
      N ∣ (count + 1) → choiceIsY (script.tail.tail.headD "") = false →
      runSession N now (c :: rest) script count =
        (c.update p (some now) :: rest,
          [.presented c.question, .reviewed c.question, .prompted (count + 1)])) ∧
    (reviewFlashcards 2 100
        [Flashcard.new "Q1" "A1" "G1", Flashcard.new "Q2" "A2" "G2",
          Flashcard.new "Q3" "A3" "G3"]
        ["", "5", "", "5", "n"]).1 =
      [(Flashcard.new "Q1" "A1" "G1").update 5 (some 100),
        (Flashcard.new "Q2" "A2" "G2").update 5 (some 100),
        Flashcard.new "Q3" "A3" "G3"] ∧
    (reviewFlashcards 2 100
        [Flashcard.new "Q1" "A1" "G1", Flashcard.new "Q2" "A2" "G2",
          Flashcard.new "Q3" "A3" "G3"]
        ["", "5", "", "5", "n"]).2 =
      [.presented "Q1", .reviewed "Q1", .presented "Q2", .reviewed "Q2",
        .prompted 2] := by
  refine ⟨runSession_eq_amendedSessionModel, ?_, ?_, ?_, rfl, by decide⟩
  · intro N now cards script k hk
    obtain ⟨h1, h2⟩ :=
      runSession_prompts_divisible N now (sortByNextReview cards) script 0 k hk
    exact ⟨h2, h1⟩
  · intro N now c rest script count p hdue hp hdvd
    exact runSession_prompt_fires N now c rest script count p hdue hp hdvd
  · intro N now c rest script count p hdue hp hdvd hy
    exact runSession_negative_answer_stops N now c rest script count p hdue hp hdvd hy

/-- Witness for `batch_prompt_amended`: its hypotheses discharged at
concrete inputs — the spec scenario's prompt count is a positive multiple
of the batch size; with batch size 1, a due card whose score is `"5"` fires
the prompt; and answering `"n"` there ends the session with exactly that
card updated. -/
theorem batch_prompt_amended_witness :
    (2 ∣ 2 ∧ 0 < 2) ∧
    SessionEvent.prompted 1 ∈
      (runSession 1 100 [Flashcard.new "Q" "A" "G"] ["", "5", "y"] 0).2 ∧
    runSession 1 100 [Flashcard.new "Q" "A" "G"] ["", "5", "n"] 0 =
      ((Flashcard.new "Q" "A" "G").update 5 (some 100) :: [],
        [.presented "Q", .reviewed "Q", .prompted 1]) :=
  ⟨batch_prompt_amended.2.1 2 100
      [Flashcard.new "Q1" "A1" "G1", Flashcard.new "Q2" "A2" "G2",
        Flashcard.new "Q3" "A3" "G3"]
      ["", "5", "", "5", "n"] 2 (by decide),
   batch_prompt_amended.2.2.1 1 100 (Flashcard.new "Q" "A" "G") []
      ["", "5", "y"] 0 5 (by decide) (by decide) (by decide),
   batch_prompt_amended.2.2.2.1 1 100 (Flashcard.new "Q" "A" "G") []
      ["", "5", "n"] 0 5 (by decide) (by decide) (by decide) (by decide)⟩

/-- C1: the code evaluated at the failing input.  The session's only
validation of the score is the `u32` parse: `"6"` parses, is accepted
(no invalid-input report), `update` is applied — there is no `InvalidScore`
error path in `Flashcard::update` — and the card's state changes.  The
claim requires the score to be validated to `[0,5]`, the review skipped,
and the card left unchanged. -/
theorem session_accepts_out_of_range_score :
    parseU32 "6" = some 6 ∧
    (reviewFlashcards 5 100 [Flashcard.new "Q" "A" "G"] ["", "6"]).2 =
      [.presented "Q", .reviewed "Q"] ∧
    (reviewFlashcards 5 100 [Flashcard.new "Q" "A" "G"] ["", "6"]).1 =
      [(Flashcard.new "Q" "A" "G").update 6 (some 100)] ∧
    ((Flashcard.new "Q" "A" "G").update 6 (some 100)).next_review ≠
      (Flashcard.new "Q" "A" "G").next_review := by
  refine ⟨by decide, by decide, rfl, by decide⟩

/-- C10: any input string parsing to an integer `p ≥ 6` passes the session's
validation; `update` is then invoked with that `p`, and the `u32`
subtraction `5 - performance` underflows: mathematically `5 - p < 0`, and
the wrapping result is `5 - p + 2^32` (in a debug build the source would
panic here instead). -/
theorem ease_subtraction_underflow (s : String) (p : Nat) (c : Flashcard)
    (now : Nat) (hs : parseU32 s = some p) (h6 : 6 ≤ p) (hlt : p < U32MOD)
    (hdue : c.next_review ≤ now) :
    (runSession 5 now [c] ["", s] 0).1 = [c.update p (some now)] ∧
    (runSession 5 now [c] ["", s] 0).2 =
      [.presented c.question, .reviewed c.question] ∧
    (5 : Int) - (p : Int) < 0 ∧
    (wrapSub32 5 p : Int) = 5 - (p : Int) + 2 ^ 32 := by
  have hrun : runSession 5 now [c] ["", s] 0 =
      ([c.update p (some now)], [.presented c.question, .reviewed c.question]) := by
    simp only [runSession, if_pos hdue, List.tail_cons, List.headD_cons, hs]
    norm_num
  have hw : wrapSub32 5 p = 2 ^ 32 + 5 - p := by
    unfold wrapSub32 U32MOD at *
    omega
  refine ⟨by rw [hrun], by rw [hrun], by omega, ?_⟩
  rw [hw]
  unfold U32MOD at hlt
  omega

/-- Witness for `ease_subtraction_underflow` at score input `"6"`. -/
theorem ease_subtraction_underflow_witness :
    (runSession 5 100 [Flashcard.new "Q" "A" "G"] ["", "6"] 0).1 =
      [(Flashcard.new "Q" "A" "G").update 6 (some 100)] ∧
    (runSession 5 100 [Flashcard.new "Q" "A" "G"] ["", "6"] 0).2 =
      [.presented (Flashcard.new "Q" "A" "G").question,
        .reviewed (Flashcard.new "Q" "A" "G").question] ∧
    (5 : Int) - ((6 : Nat) : Int) < 0 ∧
    (wrapSub32 5 6 : Int) = 5 - ((6 : Nat) : Int) + 2 ^ 32 :=
  ease_subtraction_underflow "6" 6 (Flashcard.new "Q" "A" "G") 100
    (by decide) (by decide) (by decide) (by decide)
